import Mathlib

/-!
Shallow embedding of `py_search`'s example problem modules
(`py_search/problems/assignment_problem.py` and
`py_search/problems/graph_partition.py`) together with proofs about them.

Python floats are modelled as exact integers (`Int`), list indexing `l[i]`
with an in-range index as `List.getD`, and the random primitives
(`randint`, `choice`) as seed-indexed deterministic functions that can
produce every value the Python primitive can, with `Except` capturing the
exceptions Python raises on empty ranges / empty sequences.
-/

instance {ε α : Type _} [DecidableEq ε] [DecidableEq α] :
    DecidableEq (Except ε α) := fun a b =>
  match a, b with
  | .error x, .error y =>
    if h : x = y then .isTrue (by rw [h])
    else .isFalse (by intro hc; cases hc; exact h rfl)
  | .error _, .ok _ => .isFalse (by intro hc; cases hc)
  | .ok _, .error _ => .isFalse (by intro hc; cases hc)
  | .ok x, .ok y =>
    if h : x = y then .isTrue (by rw [h])
    else .isFalse (by intro hc; cases hc; exact h rfl)

/-- `costs[i][j]` for a cost matrix stored as a list of rows. -/
def entry (costs : List (List Int)) (i j : Nat) : Int :=
  (costs.getD i []).getD j 0

/-- Helper for `cost`: running sum of `costs[row][col]` with `row` the
current index, mirroring `for row, col in enumerate(assignment)`. -/
def costGo (costs : List (List Int)) : Nat → List Nat → Int
  | _, [] => 0
  | row, c :: rest => entry costs row c + costGo costs (row + 1) rest

/-- `cost(assignment, costs)` from assignment_problem.py: the from-scratch
sum of `costs[row][col]` over the assignment. -/
def cost (assignment : List Nat) (costs : List (List Int)) : Int :=
  costGo costs 0 assignment

/-- `itertools.combinations(l, 2)`: all pairs `(l[i], l[j])` with `i < j`,
in lexicographic order of positions. -/
def pairs : List Nat → List (Nat × Nat)
  | [] => []
  | x :: xs => (xs.map fun y => (x, y)) ++ pairs xs

/-- The swap both successor bodies perform: copy the list, then
`temp = state[p0]; state[p0] = state[p1]; state[p1] = temp`. -/
def swapPos (state : List Nat) (p0 p1 : Nat) : List Nat :=
  (state.set p0 (state.getD p1 0)).set p1 (state.getD p0 0)

/-- The transposition of indices that `swapPos` realises: position `k` of
the swapped list holds the entry of position `swapIdx p0 p1 k` of the
original. -/
def swapIdx (p0 p1 k : Nat) : Nat :=
  if p1 = k then p0 else if p0 = k then p1 else k

namespace LocalAssignmentProblem

/-- The successor a pair `p` produces in `LocalAssignmentProblem`:
the incremental four-term cost update followed by the swap.  Shared by
`successors` (where `p` ranges over `combinations(node.state, 2)`) and
`random_successor` (where `p` is two random indices), whose bodies are
identical. -/
def child (costs : List (List Int)) (state : List Nat) (ccost : Int)
    (p : Nat × Nat) : List Nat × Int :=
  (swapPos state p.1 p.2,
    ccost
      - entry costs p.1 (state.getD p.1 0)
      - entry costs p.2 (state.getD p.2 0)
      + entry costs p.1 (state.getD p.2 0)
      + entry costs p.2 (state.getD p.1 0))

/-- `LocalAssignmentProblem.successors`: one child per element of
`combinations(node.state, 2)`. -/
def successors (costs : List (List Int)) (state : List Nat) (ccost : Int) :
    List (List Nat × Int) :=
  (pairs state).map (child costs state ccost)

/-- `node_value` of `LocalAssignmentProblem`: `float('-inf')`, the weakest
possible bound, independent of the node.  Modelled in `WithBot Int` with
`-inf = ⊥`. -/
def node_value (ccost : Int) : WithBot Int := ⊥

/-- `goal_test` of `LocalAssignmentProblem`: always `False`. -/
def goal_test (state : List Nat) : Bool := false

/-- The `while p[0] == p[1]: p[1] = randint(0, len(state)-1)` loop of
`random_successor`, fed one seed per iteration from `draws`
(`randint(0, n-1)` on seed `s` yields `s % n`).  `none` means the loop has
not exited after consuming all the supplied draws. -/
def retry (p0 n : Nat) : List Nat → Option Nat
  | [] => none
  | s :: rest => if s % n = p0 then retry p0 n rest else some (s % n)

/-- `LocalAssignmentProblem.random_successor`, with the random draws made
explicit: `s1` seeds the first `randint` and `draws` seeds the retry loop.
`randint(0, len(state)-1)` raises `ValueError` when the state is empty
(empty range); `.ok none` means the retry loop never exited on the given
draws. -/
def random_successor (costs : List (List Int)) (state : List Nat)
    (ccost : Int) (s1 : Nat) (draws : List Nat) :
    Except String (Option (List Nat × Int)) :=
  if state.length = 0 then .error "ValueError"
  else
    match retry (s1 % state.length) state.length draws with
    | none => .ok none
    | some p1 =>
      .ok (some (child costs state ccost (s1 % state.length, p1)))

end LocalAssignmentProblem

/-- A state of the local assignment problem is a permutation of
`0..n-1`: no duplicates and every value below the length. -/
def isPermutation (s : List Nat) : Prop :=
  s.Nodup ∧ ∀ x ∈ s, x < s.length

instance (s : List Nat) : Decidable (isPermutation s) := by
  unfold isPermutation; infer_instance

namespace AssignmentProblem

/-- Python's `min` on a nonempty list (the heuristic only applies it to
nonempty lists; the `[]` case, where Python raises, is given a junk value). -/
def pymin : List Int → Int
  | [] => 0
  | x :: xs => xs.foldl min x

/-- The row indices whose slot is still unassigned:
`[i for i, v in enumerate(node.state) if v is None]`. -/
def empty_rows (state : List (Option Nat)) : List Nat :=
  ((state.enum).filter (fun iv => iv.2 = none)).map Prod.fst

/-- `sub_c` for row `r`:
`[v for i, v in enumerate(costs[r]) if i in unassigned]`. -/
def sub_c (costs : List (List Int)) (unassigned : List Nat) (r : Nat) :
    List Int :=
  (((costs.getD r []).enum).filter (fun jv => jv.1 ∈ unassigned)).map Prod.snd

/-- `AssignmentProblem.min_cost_heuristic`: the sum over still-unassigned
rows of the minimum cost restricted to still-unassigned columns. -/
def min_cost_heuristic (costs : List (List Int)) (state : List (Option Nat))
    (unassigned : List Nat) : Int :=
  ((empty_rows state).map (fun r => pymin (sub_c costs unassigned r))).sum

/-- `AssignmentProblem.node_value`: node cost plus the heuristic. -/
def node_value (costs : List (List Int)) (state : List (Option Nat))
    (unassigned : List Nat) (ccost : Int) : Int :=
  ccost + min_cost_heuristic costs state unassigned

/-- The child state `tuple([u if i == j else k for j, k in enumerate(state)])`. -/
def fill (state : List (Option Nat)) (i u : Nat) : List (Option Nat) :=
  (state.enum).map (fun jk => if i = jk.1 then some u else jk.2)

/-- `AssignmentProblem.successors`: for every row `i` whose slot is `None`
and every column `u` still unassigned, one child filling slot `i` with `u`,
dropping `u` from the unassigned columns, with cost `node.cost() + costs[i][u]`. -/
def successors (costs : List (List Int)) (state : List (Option Nat))
    (unassigned : List Nat) (ccost : Int) :
    List (List (Option Nat) × List Nat × Int) :=
  (empty_rows state).bind (fun i =>
    unassigned.map (fun u =>
      (fill state i u, unassigned.filter (fun k => k ≠ u),
        ccost + entry costs i u)))

/-- `AssignmentProblem.goal_test`: `None not in state`. -/
def goal_test (state : List (Option Nat)) : Bool :=
  !(state.contains none)

end AssignmentProblem

namespace LocalGraphPartitionProblem

/-- `cutsize(E, p)` from graph_partition.py: the number of edges with
exactly one endpoint in the partition `p`. -/
def cutsize (E : List (Nat × Nat)) (p : Finset Nat) : Nat :=
  (E.filter (fun e =>
    (e.1 ∈ p ∧ e.2 ∉ p) ∨ (e.1 ∉ p ∧ e.2 ∈ p))).length

/-- `list(s)` on a Python set: its elements in some definite order
(Python's iteration order is unspecified; increasing order is one
determinization, and `pyChoice` can still select every element). -/
def setList (s : Finset Nat) : List Nat :=
  (List.range (s.sup id + 1)).filter (fun a => a ∈ s)

/-- `random.choice(l)` with the seed made explicit: raises `IndexError`
on an empty sequence, otherwise returns the element the seed selects
(every element is selected by some seed). -/
def pyChoice (l : List Nat) (seed : Nat) : Except String Nat :=
  match l with
  | [] => .error "IndexError"
  | _ :: _ => .ok (l.getD (seed % l.length) 0)

/-- `LocalGraphPartitionProblem.node_value`: returns `node.cost()` itself
(modelled in `WithBot Int` for comparison with the local assignment
problem's `float('-inf')`). -/
def node_value (ccost : Int) : WithBot Int := (ccost : WithBot Int)

/-- `LocalGraphPartitionProblem.goal_test`: always `False`. -/
def goal_test (p : Finset Nat) : Bool := false

/-- `LocalGraphPartitionProblem.successors`: for every `pV ∈ p` and every
`not_pV ∈ V - p`, a child whose partition swaps `pV` out for `not_pV`.
The child's stored cost is `cutsize(E, p)` of the parent's partition `p`. -/
def successors (V : Finset Nat) (E : List (Nat × Nat)) (p : Finset Nat) :
    List (Finset Nat × Nat) :=
  (setList p).bind (fun pV =>
    (setList (V \ p)).map (fun q => (insert q (p.erase pV), cutsize E p)))

/-- `LocalGraphPartitionProblem.random_successor`, with the two `choice`
seeds explicit.  The stored cost is `cutsize(E, p)` of the mutated set,
i.e. of the resulting post-swap partition. -/
def random_successor (V : Finset Nat) (E : List (Nat × Nat)) (p : Finset Nat)
    (s1 s2 : Nat) : Except String (Finset Nat × Nat) := do
  let pV ← pyChoice (setList p) s1
  let q ← pyChoice (setList (V \ p)) s2
  let p2 := insert q (p.erase pV)
  return (p2, cutsize E p2)

end LocalGraphPartitionProblem

namespace LocalGraphPartitionProblem

theorem mem_setList {s : Finset Nat} {a : Nat} : a ∈ setList s ↔ a ∈ s := by
  simp only [setList, List.mem_filter, List.mem_range, decide_eq_true_eq]
  exact ⟨fun h => h.2,
    fun h => ⟨Nat.lt_succ_of_le (Finset.le_sup (f := id) h), h⟩⟩

theorem setList_empty : setList ∅ = [] := by
  simp [setList]

theorem pyChoice_ok_mem {l : List Nat} {s x : Nat} (h : pyChoice l s = .ok x) :
    x ∈ l := by
  cases l with
  | nil => simp [pyChoice] at h
  | cons a as =>
    simp only [pyChoice, Except.ok.injEq] at h
    subst h
    have hlt : s % (a :: as).length < (a :: as).length :=
      Nat.mod_lt _ (by simp)
    rw [List.getD_eq_get _ _ hlt]
    exact List.get_mem _ _ _

/-- Card of the swapped partition: remove a member, add a non-member. -/
theorem card_insert_erase {s : Finset Nat} {a b : Nat} (ha : a ∈ s)
    (hb : b ∉ s) : (insert b (s.erase a)).card = s.card := by
  rw [Finset.card_insert_of_not_mem (fun hmem => hb (Finset.mem_of_mem_erase hmem)),
    Finset.card_erase_of_mem ha]
  have : 0 < s.card := Finset.card_pos.mpr ⟨a, ha⟩
  omega

/-- Shape of any element of `successors`: it arises from some `pV ∈ p`
and `q ∈ V \ p`. -/
theorem mem_successors_gp {V : Finset Nat} {E : List (Nat × Nat)} {p : Finset Nat}
    {ch : Finset Nat × Nat} (h : ch ∈ successors V E p) :
    ∃ pV ∈ p, ∃ q ∈ V \ p, ch = (insert q (p.erase pV), cutsize E p) := by
  simp only [successors, List.mem_bind, List.mem_map] at h
  obtain ⟨pV, hpV, q, hq, hch⟩ := h
  exact ⟨pV, mem_setList.mp hpV, q, mem_setList.mp hq, hch.symm⟩

/-- Success shape of `random_successor`: the chosen elements come from `p`
and `V \ p` and the result is the swapped partition with its own cutsize. -/
theorem random_successor_ok {V : Finset Nat} {E : List (Nat × Nat)}
    {p : Finset Nat} {s1 s2 : Nat} {res : Finset Nat × Nat}
    (h : random_successor V E p s1 s2 = .ok res) :
    ∃ pV ∈ p, ∃ q ∈ V \ p,
      res = (insert q (p.erase pV), cutsize E (insert q (p.erase pV))) := by
  unfold random_successor at h
  cases hpv : pyChoice (setList p) s1 with
  | error e => rw [hpv] at h; simp [Bind.bind, Except.bind] at h
  | ok pV =>
    rw [hpv] at h
    cases hq : pyChoice (setList (V \ p)) s2 with
    | error e => rw [hq] at h; simp [Bind.bind, Except.bind] at h
    | ok q =>
      rw [hq] at h
      simp only [Bind.bind, Except.bind, Except.ok.injEq, Pure.pure,
        Except.pure] at h
      exact ⟨pV, mem_setList.mp (pyChoice_ok_mem hpv), q,
        mem_setList.mp (pyChoice_ok_mem hq), h.symm⟩

end LocalGraphPartitionProblem

theorem getD_set_ne (a : List Nat) (i j v : Nat) (hne : i ≠ j)
    (hj : j < a.length) : (a.set i v).getD j 0 = a.getD j 0 := by
  have hj2 : j < (a.set i v).length := by simpa using hj
  rw [List.getD_eq_getElem _ _ hj2, List.getD_eq_getElem _ _ hj]
  exact List.getElem_set_of_ne hne v _

/-- Setting one position changes the running cost sum by swapping out the
old entry for the new one. -/
theorem costGo_set (costs : List (List Int)) (v : Nat) :
    ∀ (a : List Nat) (i r : Nat), i < a.length →
      costGo costs r (a.set i v) =
        costGo costs r a - entry costs (r + i) (a.getD i 0)
          + entry costs (r + i) v := by
  intro a
  induction a with
  | nil => intro i r h; simp at h
  | cons x xs ih =>
    intro i r h
    cases i with
    | zero =>
      simp only [List.set, costGo, List.getD_cons_zero, Nat.add_zero]
      ring
    | succ j =>
      have hj : j < xs.length := by simpa using h
      simp only [List.set, costGo, List.getD_cons_succ]
      rw [ih j (r + 1) hj]
      have harith : r + 1 + j = r + (j + 1) := by omega
      rw [harith]
      ring

theorem length_swapPos (s : List Nat) (p0 p1 : Nat) :
    (swapPos s p0 p1).length = s.length := by
  simp [swapPos]

/-- From-scratch cost of the swapped assignment equals the four-term
incremental update of the from-scratch cost of the original. -/
theorem cost_swapPos (costs : List (List Int)) (a : List Nat) (p0 p1 : Nat)
    (h0 : p0 < a.length) (h1 : p1 < a.length) (hne : p0 ≠ p1) :
    cost (swapPos a p0 p1) costs =
      cost a costs - entry costs p0 (a.getD p0 0) - entry costs p1 (a.getD p1 0)
        + entry costs p0 (a.getD p1 0) + entry costs p1 (a.getD p0 0) := by
  unfold cost swapPos
  rw [costGo_set costs _ _ _ _ (by simpa using h1),
    costGo_set costs _ _ _ _ h0,
    getD_set_ne a p0 p1 _ hne h1]
  simp only [Nat.zero_add]
  ring

theorem mem_pairs : ∀ {s : List Nat} {p : Nat × Nat},
    p ∈ pairs s → p.1 ∈ s ∧ p.2 ∈ s := by
  intro s
  induction s with
  | nil => intro p h; simp [pairs] at h
  | cons x xs ih =>
    intro p h
    simp only [pairs, List.mem_append, List.mem_map] at h
    rcases h with ⟨y, hy, rfl⟩ | h
    · exact ⟨List.mem_cons_self _ _, List.mem_cons_of_mem _ hy⟩
    · obtain ⟨h1, h2⟩ := ih h
      exact ⟨List.mem_cons_of_mem _ h1, List.mem_cons_of_mem _ h2⟩

theorem pairs_ne : ∀ {s : List Nat}, s.Nodup → ∀ {p : Nat × Nat},
    p ∈ pairs s → p.1 ≠ p.2 := by
  intro s
  induction s with
  | nil => intro _ p h; simp [pairs] at h
  | cons x xs ih =>
    intro hnd p h
    simp only [pairs, List.mem_append, List.mem_map] at h
    rcases h with ⟨y, hy, rfl⟩ | h
    · intro hc
      have hx : x ∈ xs := by
        have hc2 : x = y := hc
        rw [hc2]; exact hy
      exact (List.nodup_cons.mp hnd).1 hx
    · exact ih (List.nodup_cons.mp hnd).2 h

namespace LocalAssignmentProblem

/-- A successful exit of the retry loop yields an index distinct from `p0`
and below `n`. -/
theorem retry_some {p0 n : Nat} (hn : 0 < n) : ∀ {draws : List Nat} {p1 : Nat},
    retry p0 n draws = some p1 → p1 ≠ p0 ∧ p1 < n := by
  intro draws
  induction draws with
  | nil => intro p1 h; simp [retry] at h
  | cons s rest ih =>
    intro p1 h
    simp only [retry] at h
    by_cases hs : s % n = p0
    · rw [if_pos hs] at h
      exact ih h
    · rw [if_neg hs] at h
      cases h
      exact ⟨hs, Nat.mod_lt _ hn⟩

/-- On a 1-element state every draw of `randint(0, 0)` equals `p0 = 0`, so
the retry loop never exits. -/
theorem retry_mod_one (draws : List Nat) : retry 0 1 draws = none := by
  induction draws with
  | nil => rfl
  | cons s rest ih => simp [retry, Nat.mod_one, ih]

end LocalAssignmentProblem

/-- C9 counterexample: on the 1-element state `[0]`, `successors` returns
the empty list of children (a result, not an error), and
`random_successor` never exits its retry loop (modelled draws exhausted
with no exit) — neither raises an invalid-input error. -/
theorem C9_counterexample :
    LocalAssignmentProblem.successors [[5]] [0] 7 = [] ∧
    LocalAssignmentProblem.random_successor [[5]] [0] 7 0 [0, 0, 0] =
      .ok none := by
  decide

/-- C9 amended: on a state with fewer than two elements, `successors`
yields no children (and raises nothing); `random_successor` raises
`ValueError` on the empty state (`randint` on an empty range) and never
exits its retry loop on a 1-element state, whatever the random draws. -/
theorem C9_amended (costs : List (List Int)) (ccost : Int) :
    (∀ state : List Nat, state.length < 2 →
      LocalAssignmentProblem.successors costs state ccost = []) ∧
    (∀ s1 draws,
      LocalAssignmentProblem.random_successor costs [] ccost s1 draws =
        .error "ValueError") ∧
    (∀ x s1 draws,
      LocalAssignmentProblem.random_successor costs [x] ccost s1 draws =
        .ok none) := by
  refine ⟨?_, ?_, ?_⟩
  · intro state h
    match state with
    | [] => rfl
    | [_] => rfl
    | a :: b :: rest => simp at h; omega
  · intro s1 draws
    rfl
  · intro x s1 draws
    simp [LocalAssignmentProblem.random_successor, Nat.mod_one,
      LocalAssignmentProblem.retry_mod_one]

/-- C9 amended witness: concrete degenerate states. -/
theorem C9_amended_witness :
    ([0] : List Nat).length < 2 ∧
    LocalAssignmentProblem.successors [[5]] [0] 7 = [] ∧
    LocalAssignmentProblem.random_successor [[5]] [] 7 0 [1] =
      .error "ValueError" ∧
    LocalAssignmentProblem.random_successor [[5]] [0] 7 0 [1, 2] =
      .ok none :=
  ⟨by decide, (C9_amended [[5]] 7).1 [0] (by decide),
    (C9_amended [[5]] 7).2.1 0 [1], (C9_amended [[5]] 7).2.2 0 0 [1, 2]⟩

/-- C1: starting from a node whose stored cost is the from-scratch cost of
its permutation state, every child of `successors` and every successful
child of `random_successor` stores exactly the from-scratch cost
`Σ costs[row][assignment[row]]` of its own resulting permutation. -/
theorem C1_incremental_cost (costs : List (List Int)) (state : List Nat)
    (ccost : Int)
    (hsq : costs.length = state.length ∧
      ∀ row ∈ costs, row.length = state.length)
    (hperm : isPermutation state)
    (hcost : ccost = cost state costs) :
    (∀ ch ∈ LocalAssignmentProblem.successors costs state ccost,
      ch.2 = cost ch.1 costs) ∧
    (∀ s1 draws st c,
      LocalAssignmentProblem.random_successor costs state ccost s1 draws =
        .ok (some (st, c)) → c = cost st costs) := by
  have key : ∀ p0 p1 : Nat, p0 < state.length → p1 < state.length →
      p0 ≠ p1 →
      (LocalAssignmentProblem.child costs state ccost (p0, p1)).2 =
        cost (LocalAssignmentProblem.child costs state ccost (p0, p1)).1
          costs := by
    intro p0 p1 h0 h1 hne
    simp only [LocalAssignmentProblem.child]
    rw [cost_swapPos costs state p0 p1 h0 h1 hne, hcost]
  constructor
  · intro ch hch
    simp only [LocalAssignmentProblem.successors, List.mem_map] at hch
    obtain ⟨p, hp, rfl⟩ := hch
    have hmem := mem_pairs hp
    exact key p.1 p.2 (hperm.2 _ hmem.1) (hperm.2 _ hmem.2)
      (pairs_ne hperm.1 hp)
  · intro s1 draws st c h
    unfold LocalAssignmentProblem.random_successor at h
    by_cases hlen : state.length = 0
    · simp [hlen] at h
    · rw [if_neg hlen] at h
      cases hr : LocalAssignmentProblem.retry (s1 % state.length)
          state.length draws with
      | none => rw [hr] at h; simp at h
      | some p1 =>
        rw [hr] at h
        have hn : 0 < state.length := Nat.pos_of_ne_zero hlen
        obtain ⟨hne, hp1⟩ := LocalAssignmentProblem.retry_some hn hr
        have hp0 : s1 % state.length < state.length := Nat.mod_lt _ hn
        have hk := key (s1 % state.length) p1 hp0 hp1 (Ne.symm hne)
        simp only [Except.ok.injEq, Option.some.injEq] at h
        rw [h] at hk
        exact hk

/-- C1 witness: the 2×2 matrix `[[1,2],[3,4]]`, permutation `[1,0]`,
stored cost 5; its unique successor and a successful random successor both
carry the recomputed cost of their resulting permutation. -/
theorem C1_incremental_cost_witness :
    (([[1, 2], [3, 4]] : List (List Int)).length = ([1, 0] : List Nat).length ∧
      isPermutation [1, 0] ∧ (5 : Int) = cost [1, 0] [[1, 2], [3, 4]]) ∧
    (([0, 1], (5 : Int)) : List Nat × Int).2 = cost [0, 1] [[1, 2], [3, 4]] ∧
    (5 : Int) = cost [0, 1] [[1, 2], [3, 4]] := by
  have h := C1_incremental_cost [[1, 2], [3, 4]] [1, 0] 5
    ⟨by decide, by decide⟩ (by decide) (by decide)
  exact ⟨⟨by decide, by decide, by decide⟩,
    h.1 ([0, 1], 5) (by decide),
    h.2 0 [1] [0, 1] 5 (by decide)⟩

namespace AssignmentProblem

/-- `i` is listed in `empty_rows` exactly when slot `i` exists and is
unassigned. -/
theorem mem_empty_rows {state : List (Option Nat)} {i : Nat} :
    i ∈ empty_rows state ↔ i < state.length ∧ state.getD i none = none := by
  simp only [empty_rows, List.mem_map, List.mem_filter, decide_eq_true_eq]
  constructor
  · rintro ⟨⟨j, v⟩, ⟨henum, hv⟩, rfl⟩
    rw [List.mem_enum_iff_get?] at henum
    have hlt : j < state.length := (List.get?_eq_some.mp henum).1
    refine ⟨hlt, ?_⟩
    have hget : state.get ⟨j, hlt⟩ = v := by
      have := List.get?_eq_get hlt
      rw [this] at henum
      exact Option.some.inj henum
    rw [List.getD_eq_get state none hlt, hget]
    exact hv
  · rintro ⟨hlt, hnone⟩
    refine ⟨(i, none), ⟨?_, rfl⟩, rfl⟩
    rw [List.mem_enum_iff_get?, List.get?_eq_get hlt]
    rw [List.getD_eq_get state none hlt] at hnone
    rw [hnone]

theorem fill_length (state : List (Option Nat)) (i u : Nat) :
    (fill state i u).length = state.length := by
  simp [fill]

/-- Entries of the filled state: `some u` at position `i`, unchanged
elsewhere (in range). -/
theorem getD_fill (state : List (Option Nat)) (i u j : Nat)
    (hj : j < state.length) :
    (fill state i u).getD j none =
      if i = j then some u else state.getD j none := by
  have hj2 : j < (fill state i u).length := by rw [fill_length]; exact hj
  rw [List.getD_eq_get _ _ hj2, List.getD_eq_get _ _ hj]
  simp [fill]

theorem getD_fill_self (state : List (Option Nat)) (i u : Nat)
    (hi : i < state.length) :
    (fill state i u).getD i none = some u := by
  rw [getD_fill state i u i hi, if_pos rfl]

theorem getD_fill_ne (state : List (Option Nat)) (i u j : Nat)
    (hne : j ≠ i) :
    (fill state i u).getD j none = state.getD j none := by
  by_cases hj : j < state.length
  · rw [getD_fill state i u j hj, if_neg (fun h => hne h.symm)]
  · have h1 : state.length ≤ j := Nat.le_of_not_lt hj
    have h2 : (fill state i u).length ≤ j := by rw [fill_length]; exact h1
    rw [List.getD_eq_default _ _ h1, List.getD_eq_default _ _ h2]

/-- Shape of the children of the tree-search `successors`. -/
theorem mem_successors_tree {costs : List (List Int)} {state : List (Option Nat)}
    {unassigned : List Nat} {ccost : Int}
    {ch : List (Option Nat) × List Nat × Int} :
    ch ∈ successors costs state unassigned ccost ↔
      ∃ i ∈ empty_rows state, ∃ u ∈ unassigned,
        ch = (fill state i u, unassigned.filter (fun k => k ≠ u),
          ccost + entry costs i u) := by
  simp only [successors, List.mem_bind, List.mem_map]
  constructor
  · rintro ⟨i, hi, u, hu, rfl⟩
    exact ⟨i, hi, u, hu, rfl⟩
  · rintro ⟨i, hi, u, hu, rfl⟩
    exact ⟨i, hi, u, hu, rfl⟩

/-- The number of children is (number of empty rows) × (number of
unassigned columns). -/
theorem successors_length (costs : List (List Int))
    (state : List (Option Nat)) (unassigned : List Nat) (ccost : Int) :
    (successors costs state unassigned ccost).length =
      (empty_rows state).length * unassigned.length := by
  rw [successors, List.length_bind]
  have hconst : (List.length ∘ fun i =>
      unassigned.map (fun u => (fill state i u,
        unassigned.filter (fun k => k ≠ u), ccost + entry costs i u))) =
      fun _ : Nat => unassigned.length := by
    funext i
    simp
  rw [hconst]
  simp [List.map_const]

/-- Python's `min` of a nonempty list is a lower bound on its members. -/
theorem foldl_min_le (xs : List Int) :
    ∀ acc : Int, xs.foldl min acc ≤ acc ∧ ∀ a ∈ xs, xs.foldl min acc ≤ a := by
  induction xs with
  | nil => intro acc; simp
  | cons y ys ih =>
    intro acc
    have h := ih (min acc y)
    constructor
    · exact le_trans h.1 (min_le_left _ _)
    · intro a ha
      rcases List.mem_cons.mp ha with rfl | ha
      · exact le_trans h.1 (min_le_right _ _)
      · exact h.2 a ha

theorem pymin_le {l : List Int} {a : Int} (h : a ∈ l) : pymin l ≤ a := by
  cases l with
  | nil => simp at h
  | cons x xs =>
    rcases List.mem_cons.mp h with rfl | hx
    · exact (foldl_min_le xs a).1
    · exact (foldl_min_le xs x).2 a hx

/-- The matrix entry of any still-unassigned column of row `r` is listed
in `sub_c` for row `r`. -/
theorem entry_mem_sub_c {costs : List (List Int)} {unassigned : List Nat}
    {r u : Nat} (hu : u ∈ unassigned)
    (hlt : u < (costs.getD r []).length) :
    entry costs r u ∈ sub_c costs unassigned r := by
  simp only [sub_c, List.mem_map, List.mem_filter]
  refine ⟨(u, (costs.getD r []).get ⟨u, hlt⟩), ⟨?_, by simpa using hu⟩, ?_⟩
  · rw [List.mem_enum_iff_get?, List.get?_eq_get hlt]
  · simp only [entry]
    rw [List.getD_eq_get _ _ hlt]

end AssignmentProblem

/-- C5: with `k` unassigned row slots and `k` unassigned columns, the
tree-search `successors` yields exactly `k²` children; each fills one
unassigned row with one unassigned column, removes that column from the
child's unassigned columns, and adds `costs[row][column]` to the parent's
cumulative cost. -/
theorem C5_tree_successors (costs : List (List Int))
    (state : List (Option Nat)) (unassigned : List Nat) (ccost : Int)
    (k : Nat) (hrows : (AssignmentProblem.empty_rows state).length = k)
    (hcols : unassigned.length = k) :
    (AssignmentProblem.successors costs state unassigned ccost).length =
      k * k ∧
    ∀ ch ∈ AssignmentProblem.successors costs state unassigned ccost,
      ∃ i u, i < state.length ∧ state.getD i none = none ∧ u ∈ unassigned ∧
        ch.1 = AssignmentProblem.fill state i u ∧
        ch.1.getD i none = some u ∧
        (∀ j, j ≠ i → ch.1.getD j none = state.getD j none) ∧
        ch.2.1 = unassigned.filter (fun c => c ≠ u) ∧
        u ∉ ch.2.1 ∧
        ch.2.2 = ccost + entry costs i u := by
  constructor
  · rw [AssignmentProblem.successors_length, hrows, hcols]
  · intro ch hch
    obtain ⟨i, hi, u, hu, rfl⟩ := AssignmentProblem.mem_successors_tree.mp hch
    obtain ⟨hilt, hinone⟩ := AssignmentProblem.mem_empty_rows.mp hi
    exact ⟨i, u, hilt, hinone, hu, rfl,
      AssignmentProblem.getD_fill_self state i u hilt,
      fun j hj => AssignmentProblem.getD_fill_ne state i u j hj,
      rfl, by simp, rfl⟩

/-- C5 witness: the empty 2×2 state has 4 children, and a concrete child
has the claimed shape. -/
theorem C5_tree_successors_witness :
    ((AssignmentProblem.empty_rows [none, none]).length = 2 ∧
      ([0, 1] : List Nat).length = 2) ∧
    (AssignmentProblem.successors [[1, 2], [3, 4]] [none, none] [0, 1]
      0).length = 2 * 2 ∧
    (∃ i u, i < ([none, none] : List (Option Nat)).length ∧
      ([none, none] : List (Option Nat)).getD i none = none ∧
      u ∈ ([0, 1] : List Nat) ∧
      (([some 0, none], [1], 1) :
        List (Option Nat) × List Nat × Int).1 =
          AssignmentProblem.fill [none, none] i u ∧
      (([some 0, none], [1], 1) :
        List (Option Nat) × List Nat × Int).1.getD i none = some u ∧
      (∀ j, j ≠ i →
        (([some 0, none], [1], 1) :
          List (Option Nat) × List Nat × Int).1.getD j none =
          ([none, none] : List (Option Nat)).getD j none) ∧
      (([some 0, none], [1], 1) :
        List (Option Nat) × List Nat × Int).2.1 =
          ([0, 1] : List Nat).filter (fun c => c ≠ u) ∧
      u ∉ (([some 0, none], [1], 1) :
        List (Option Nat) × List Nat × Int).2.1 ∧
      (([some 0, none], [1], 1) :
        List (Option Nat) × List Nat × Int).2.2 =
          0 + entry [[1, 2], [3, 4]] i u) := by
  have h := C5_tree_successors [[1, 2], [3, 4]] [none, none] [0, 1] 0 2
    (by decide) (by decide)
  exact ⟨⟨by decide, by decide⟩, h.1,
    h.2 ([some 0, none], [1], 1) (by decide)⟩

/-- C4: the min-cost heuristic never exceeds the added cost of any way of
completing the partial assignment (each empty row mapped to an unassigned,
in-range column, injectively), hence never exceeds the true minimal
completion cost. -/
theorem C4_heuristic_admissible (costs : List (List Int))
    (state : List (Option Nat)) (unassigned : List Nat) (σ : Nat → Nat)
    (hσ : ∀ r ∈ AssignmentProblem.empty_rows state,
      σ r ∈ unassigned ∧ σ r < (costs.getD r []).length)
    (hinj : ∀ r1 ∈ AssignmentProblem.empty_rows state,
      ∀ r2 ∈ AssignmentProblem.empty_rows state, σ r1 = σ r2 → r1 = r2) :
    AssignmentProblem.min_cost_heuristic costs state unassigned ≤
      ((AssignmentProblem.empty_rows state).map
        (fun r => entry costs r (σ r))).sum := by
  unfold AssignmentProblem.min_cost_heuristic
  apply List.sum_le_sum
  intro r hr
  obtain ⟨h1, h2⟩ := hσ r hr
  exact AssignmentProblem.pymin_le (AssignmentProblem.entry_mem_sub_c h1 h2)

/-- C4 witness: partial state `[some 0, none]` with column 1 unassigned;
the completion assigning column 1 to row 1 costs 4 and the heuristic does
not exceed it. -/
theorem C4_heuristic_admissible_witness :
    (∀ r ∈ AssignmentProblem.empty_rows [some 0, none],
      (fun _ : Nat => 1) r ∈ ([1] : List Nat) ∧
      (fun _ : Nat => 1) r < (([[1, 2], [3, 4]] :
        List (List Int)).getD r []).length) ∧
    AssignmentProblem.min_cost_heuristic [[1, 2], [3, 4]] [some 0, none]
      [1] ≤
      ((AssignmentProblem.empty_rows [some 0, none]).map
        (fun r => entry [[1, 2], [3, 4]] r ((fun _ : Nat => 1) r))).sum := by
  refine ⟨by decide, ?_⟩
  exact C4_heuristic_admissible [[1, 2], [3, 4]] [some 0, none] [1]
    (fun _ => 1) (by decide) (by decide)

/-- C8: `AssignmentProblem.goal_test` is true exactly when no slot of the
state is `None`, while the goal tests of `LocalAssignmentProblem` and
`LocalGraphPartitionProblem` are false on every state. -/
theorem C8_goal_test_semantics :
    (∀ state : List (Option Nat),
      AssignmentProblem.goal_test state = true ↔ none ∉ state) ∧
    (∀ state : List Nat, LocalAssignmentProblem.goal_test state = false) ∧
    (∀ p : Finset Nat, LocalGraphPartitionProblem.goal_test p = false) := by
  refine ⟨fun state => ?_, fun _ => rfl, fun _ => rfl⟩
  simp [AssignmentProblem.goal_test]

/-- C2 counterexample: `LocalGraphPartitionProblem.node_value` is not the
weakest possible bound and does depend on the node's own cost: on cost 1 it
differs from bottom and from its value on cost 0. -/
theorem C2_counterexample :
    LocalGraphPartitionProblem.node_value 1 ≠ ⊥ ∧
    LocalGraphPartitionProblem.node_value 1 ≠
      LocalGraphPartitionProblem.node_value 0 := by
  constructor <;> simp [LocalGraphPartitionProblem.node_value]

/-- C3: every child of `LocalGraphPartitionProblem.successors` stores the
cutsize of the parent's pre-swap partition, while the child of
`random_successor` stores the cutsize of its own post-swap partition. -/
theorem C3_stored_cost_semantics (V : Finset Nat) (E : List (Nat × Nat))
    (p : Finset Nat) (hne : p.Nonempty) (hss : p ⊂ V) :
    (∀ ch ∈ LocalGraphPartitionProblem.successors V E p,
      ch.2 = LocalGraphPartitionProblem.cutsize E p) ∧
    (∀ s1 s2 part c,
      LocalGraphPartitionProblem.random_successor V E p s1 s2 = .ok (part, c) →
      c = LocalGraphPartitionProblem.cutsize E part) := by
  constructor
  · intro ch hch
    obtain ⟨pV, _, q, _, hch⟩ := LocalGraphPartitionProblem.mem_successors_gp hch
    rw [hch]
  · intro s1 s2 part c h
    obtain ⟨pV, _, q, _, hres⟩ :=
      LocalGraphPartitionProblem.random_successor_ok h
    rw [Prod.mk.injEq] at hres
    rw [hres.2, hres.1]

/-- C3 witness: on `V = {0,1,2}`, `E = [(0,1),(1,2)]`, `p = {0}`, the
hypotheses hold and both conclusions hold on a concrete child. -/
theorem C3_stored_cost_semantics_witness :
    (({0} : Finset Nat).Nonempty ∧ ({0} : Finset Nat) ⊂ {0, 1, 2}) ∧
    (({1}, 1) : Finset Nat × Nat).2 =
      LocalGraphPartitionProblem.cutsize [(0, 1), (1, 2)] {0} ∧
    (1 : Nat) = LocalGraphPartitionProblem.cutsize [(0, 1), (1, 2)] {2} := by
  have h := C3_stored_cost_semantics {0, 1, 2} [(0, 1), (1, 2)] {0}
    (by decide) (by decide)
  exact ⟨⟨by decide, by decide⟩,
    h.1 ({1}, 1) (by decide),
    h.2 0 1 {2} 1 (by decide)⟩

/-- C7: every successor and every successful random successor keeps the
partition's cardinality: one vertex leaves `p`, one vertex of `V \ p`
joins. -/
theorem C7_partition_card_invariant (V : Finset Nat) (E : List (Nat × Nat))
    (p : Finset Nat) (hne : p.Nonempty) (hss : p ⊂ V) :
    (∀ ch ∈ LocalGraphPartitionProblem.successors V E p,
      ch.1.card = p.card) ∧
    (∀ s1 s2 part c,
      LocalGraphPartitionProblem.random_successor V E p s1 s2 = .ok (part, c) →
      part.card = p.card) := by
  constructor
  · intro ch hch
    obtain ⟨pV, hpV, q, hq, hch⟩ := LocalGraphPartitionProblem.mem_successors_gp hch
    rw [hch]
    exact LocalGraphPartitionProblem.card_insert_erase hpV
      (Finset.mem_sdiff.mp hq).2
  · intro s1 s2 part c h
    obtain ⟨pV, hpV, q, hq, hres⟩ :=
      LocalGraphPartitionProblem.random_successor_ok h
    rw [Prod.mk.injEq] at hres
    rw [hres.1]
    exact LocalGraphPartitionProblem.card_insert_erase hpV
      (Finset.mem_sdiff.mp hq).2

/-- C7 witness: concrete instance of the cardinality invariant. -/
theorem C7_partition_card_invariant_witness :
    (({0} : Finset Nat).Nonempty ∧ ({0} : Finset Nat) ⊂ {0, 1, 2}) ∧
    (({1}, 1) : Finset Nat × Nat).1.card = ({0} : Finset Nat).card ∧
    ({2} : Finset Nat).card = ({0} : Finset Nat).card := by
  have h := C7_partition_card_invariant {0, 1, 2} [(0, 1), (1, 2)] {0}
    (by decide) (by decide)
  exact ⟨⟨by decide, by decide⟩,
    h.1 ({1}, 1) (by decide),
    h.2 0 1 {2} 1 (by decide)⟩

/-- C10: on a degenerate partition (empty or all of `V`),
`successors` yields no children and `random_successor` raises `IndexError`
(`random.choice` on an empty sequence). -/
theorem C10_degenerate_partition (V : Finset Nat) (E : List (Nat × Nat))
    (p : Finset Nat) (hp : p = ∅ ∨ p = V) :
    LocalGraphPartitionProblem.successors V E p = [] ∧
    ∀ s1 s2, LocalGraphPartitionProblem.random_successor V E p s1 s2 =
      .error "IndexError" := by
  rcases hp with hp | hp
  · subst hp
    constructor
    · simp [LocalGraphPartitionProblem.successors,
        LocalGraphPartitionProblem.setList_empty]
    · intro s1 s2
      simp [LocalGraphPartitionProblem.random_successor,
        LocalGraphPartitionProblem.setList_empty,
        LocalGraphPartitionProblem.pyChoice, Bind.bind, Except.bind]
  · subst hp
    constructor
    · simp [LocalGraphPartitionProblem.successors, Finset.sdiff_self,
        LocalGraphPartitionProblem.setList_empty]
    · intro s1 s2
      unfold LocalGraphPartitionProblem.random_successor
      cases hsl : LocalGraphPartitionProblem.setList p with
      | nil =>
        simp [LocalGraphPartitionProblem.pyChoice, hsl, Bind.bind, Except.bind]
      | cons a as =>
        simp [LocalGraphPartitionProblem.pyChoice, hsl, Finset.sdiff_self,
          LocalGraphPartitionProblem.setList_empty, Bind.bind, Except.bind]

/-- C10 witness: concrete degenerate instance (`p = ∅`). -/
theorem C10_degenerate_partition_witness :
    (∅ = (∅ : Finset Nat) ∨ (∅ : Finset Nat) = ({0, 1} : Finset Nat)) ∧
    LocalGraphPartitionProblem.successors {0, 1} [(0, 1)] ∅ = [] ∧
    LocalGraphPartitionProblem.random_successor {0, 1} [(0, 1)] ∅ 0 0 =
      .error "IndexError" := by
  have h := C10_degenerate_partition {0, 1} [(0, 1)] ∅ (Or.inl rfl)
  exact ⟨Or.inl rfl, h.1, h.2 0 0⟩

/-- C2 amended: `LocalGraphPartitionProblem.node_value` returns the node's
own cost — strictly above the weakest bound — whereas
`LocalAssignmentProblem.node_value` returns `float('-inf')`, the weakest
possible bound. -/
theorem C2_amended (c : Int) :
    LocalGraphPartitionProblem.node_value c = (c : WithBot Int) ∧
    ⊥ < LocalGraphPartitionProblem.node_value c ∧
    LocalAssignmentProblem.node_value c = ⊥ := by
  refine ⟨rfl, ?_, rfl⟩
  simp [LocalGraphPartitionProblem.node_value]

theorem getD_set_self (l : List Nat) (i v : Nat) (hi : i < l.length) :
    (l.set i v).getD i 0 = v := by
  have hi2 : i < (l.set i v).length := by simpa using hi
  rw [List.getD_eq_getElem _ _ hi2]
  simp

/-- Entry formula for the swapped list. -/
theorem getD_swapPos (s : List Nat) (a b : Nat) (ha : a < s.length)
    (hb : b < s.length) (j : Nat) (hj : j < s.length) :
    (swapPos s a b).getD j 0 =
      if b = j then s.getD a 0
      else if a = j then s.getD b 0
      else s.getD j 0 := by
  unfold swapPos
  by_cases hbj : b = j
  · subst hbj
    rw [if_pos rfl]
    exact getD_set_self _ b _ (by simpa using hb)
  · rw [if_neg hbj, getD_set_ne _ b j _ hbj (by simpa using hj)]
    by_cases haj : a = j
    · subst haj
      rw [if_pos rfl]
      exact getD_set_self _ a _ ha
    · rw [if_neg haj, getD_set_ne _ a j _ haj hj]

theorem getD_swapPos_idx (s : List Nat) (a b : Nat) (ha : a < s.length)
    (hb : b < s.length) (j : Nat) (hj : j < s.length) :
    (swapPos s a b).getD j 0 = s.getD (swapIdx a b j) 0 := by
  rw [getD_swapPos s a b ha hb j hj]
  unfold swapIdx
  split_ifs <;> rfl

theorem swapIdx_lt {a b n : Nat} (ha : a < n) (hb : b < n) {k : Nat}
    (hk : k < n) : swapIdx a b k < n := by
  unfold swapIdx
  split_ifs <;> omega

theorem swapIdx_inj {a b k1 k2 : Nat}
    (h : swapIdx a b k1 = swapIdx a b k2) : k1 = k2 := by
  unfold swapIdx at h
  split_ifs at h <;> omega

theorem swapPos_comm (s : List Nat) (a b : Nat) (ha : a < s.length)
    (hb : b < s.length) : swapPos s a b = swapPos s b a := by
  have hlen : (swapPos s a b).length = (swapPos s b a).length := by
    rw [length_swapPos, length_swapPos]
  apply List.ext_getElem hlen
  intro j h1 h2
  have hj : j < s.length := by rwa [length_swapPos] at h1
  have e1 : (swapPos s a b).getD j 0 = (swapPos s a b)[j] :=
    List.getD_eq_getElem _ _ h1
  have e2 : (swapPos s b a).getD j 0 = (swapPos s b a)[j] :=
    List.getD_eq_getElem _ _ h2
  rw [← e1, ← e2, getD_swapPos s a b ha hb j hj,
    getD_swapPos s b a hb ha j hj]
  by_cases hbj : b = j <;> by_cases haj : a = j <;>
    simp [hbj, haj]

theorem nodup_getD_inj {s : List Nat} (h : s.Nodup) {i j : Nat}
    (hi : i < s.length) (hj : j < s.length)
    (heq : s.getD i 0 = s.getD j 0) : i = j := by
  rw [List.getD_eq_getElem _ _ hi, List.getD_eq_getElem _ _ hj] at heq
  have hget : s.get ⟨i, hi⟩ = s.get ⟨j, hj⟩ := by simpa using heq
  have h2 := List.nodup_iff_injective_get.mp h hget
  exact congrArg Fin.val h2

theorem getD_mem (s : List Nat) (i : Nat) (hi : i < s.length) :
    s.getD i 0 ∈ s := by
  rw [List.getD_eq_getElem _ _ hi]
  exact List.getElem_mem _

/-- A permutation state contains every index below its length. -/
theorem isPermutation_mem {s : List Nat} (h : isPermutation s) {k : Nat}
    (hk : k < s.length) : k ∈ s := by
  have hsub : s.toFinset ⊆ Finset.range s.length := fun x hx =>
    Finset.mem_range.mpr (h.2 x (List.mem_toFinset.mp hx))
  have hcard : s.toFinset.card = s.length := List.toFinset_card_of_nodup h.1
  have heq : s.toFinset = Finset.range s.length :=
    Finset.eq_of_subset_of_card_le hsub
      (by rw [hcard, Finset.card_range])
  have hk2 : k ∈ s.toFinset := by
    rw [heq]
    exact Finset.mem_range.mpr hk
  exact List.mem_toFinset.mp hk2

/-- `combinations(s, 2)` has `C(|s|, 2)` elements. -/
theorem pairs_length (s : List Nat) : (pairs s).length = s.length.choose 2 := by
  induction s with
  | nil => rfl
  | cons x xs ih =>
    simp only [pairs, List.length_append, List.length_map, List.length_cons,
      ih]
    rw [Nat.choose_succ_succ, Nat.choose_one_right]

/-- Swapping two distinct in-range positions of a duplicate-free list
determines the unordered pair of positions. -/
theorem swapPos_eq_iff {s : List Nat} (hnd : s.Nodup) {a b c d : Nat}
    (ha : a < s.length) (hb : b < s.length) (hc : c < s.length)
    (hd : d < s.length) (hab : a ≠ b) (hcd : c ≠ d) :
    swapPos s a b = swapPos s c d ↔ (a = c ∧ b = d) ∨ (a = d ∧ b = c) := by
  constructor
  · intro heq
    have h1 : (swapPos s a b).getD a 0 = (swapPos s c d).getD a 0 := by
      rw [heq]
    rw [getD_swapPos s a b ha hb a ha, getD_swapPos s c d hc hd a ha,
      if_neg (fun h => hab h.symm), if_pos rfl] at h1
    by_cases hda : d = a
    · rw [if_pos hda] at h1
      exact Or.inr ⟨hda.symm, nodup_getD_inj hnd hb hc h1⟩
    · rw [if_neg hda] at h1
      by_cases hca : c = a
      · rw [if_pos hca] at h1
        exact Or.inl ⟨hca.symm, nodup_getD_inj hnd hb hd h1⟩
      · rw [if_neg hca] at h1
        exact absurd (nodup_getD_inj hnd hb ha h1).symm hab
  · rintro (⟨rfl, rfl⟩ | ⟨rfl, rfl⟩)
    · rfl
    · exact swapPos_comm s a b ha hb

/-- Swapping two in-range positions of a permutation yields a
permutation. -/
theorem isPermutation_swapPos {s : List Nat} (hperm : isPermutation s)
    {a b : Nat} (ha : a < s.length) (hb : b < s.length) :
    isPermutation (swapPos s a b) := by
  constructor
  · rw [List.nodup_iff_injective_get]
    intro i j hij
    have hi : (i : Nat) < s.length :=
      Nat.lt_of_lt_of_eq i.2 (length_swapPos s a b)
    have hj : (j : Nat) < s.length :=
      Nat.lt_of_lt_of_eq j.2 (length_swapPos s a b)
    have hij' : (swapPos s a b).getD i.1 0 = (swapPos s a b).getD j.1 0 := by
      rw [List.getD_eq_getElem _ _ i.2, List.getD_eq_getElem _ _ j.2]
      simpa [List.get_eq_getElem] using hij
    rw [getD_swapPos_idx s a b ha hb _ hi,
      getD_swapPos_idx s a b ha hb _ hj] at hij'
    have hidx := nodup_getD_inj hperm.1 (swapIdx_lt ha hb hi)
      (swapIdx_lt ha hb hj) hij'
    exact Fin.ext (swapIdx_inj hidx)
  · intro x hx
    rw [length_swapPos]
    unfold swapPos at hx
    rcases List.mem_or_eq_of_mem_set hx with hx1 | rfl
    · rcases List.mem_or_eq_of_mem_set hx1 with hx2 | rfl
      · exact hperm.2 x hx2
      · exact hperm.2 _ (getD_mem s b hb)
    · exact hperm.2 _ (getD_mem s a ha)

/-- In `combinations(s, 2)` of a duplicate-free list, each unordered pair
of distinct members occurs exactly once (in one of its two orders). -/
theorem countP_pairs : ∀ {s : List Nat}, s.Nodup → ∀ {a b : Nat},
    a ∈ s → b ∈ s → a ≠ b →
    (pairs s).countP
      (fun p => decide ((p.1 = a ∧ p.2 = b) ∨ (p.1 = b ∧ p.2 = a))) = 1 := by
  intro s
  induction s with
  | nil =>
    intro _ a b ha _ _
    simp at ha
  | cons x xs ih =>
    intro hnd a b ha hb hab
    have hx : x ∉ xs := (List.nodup_cons.mp hnd).1
    have hnd2 : xs.Nodup := (List.nodup_cons.mp hnd).2
    simp only [pairs, List.countP_append, List.countP_map]
    by_cases hax : a = x
    · subst hax
      have hbxs : b ∈ xs := by
        rcases List.mem_cons.mp hb with h | h
        · exact absurd h.symm hab
        · exact h
      have h1 : xs.countP
          ((fun p : Nat × Nat =>
            decide ((p.1 = a ∧ p.2 = b) ∨ (p.1 = b ∧ p.2 = a))) ∘
            fun y => (a, y)) = xs.countP (fun y => decide (y = b)) := by
        apply List.countP_congr
        intro y hy
        simp only [Function.comp_apply, decide_eq_true_eq]
        constructor
        · rintro (⟨_, h⟩ | ⟨h, _⟩)
          · exact h
          · exact absurd h hab
        · intro h
          exact Or.inl ⟨trivial, h⟩
      have h2 : (pairs xs).countP
          (fun p : Nat × Nat =>
            decide ((p.1 = a ∧ p.2 = b) ∨ (p.1 = b ∧ p.2 = a))) = 0 := by
        rw [List.countP_eq_zero]
        intro p hp
        have hmem := mem_pairs hp
        simp only [decide_eq_true_eq]
        rintro (⟨h1', _⟩ | ⟨_, h2'⟩)
        · exact hx (h1' ▸ hmem.1)
        · exact hx (h2' ▸ hmem.2)
      have h3 : xs.countP (fun y => decide (y = b)) = xs.count b := by
        apply List.countP_congr
        intro y hy
        simp [beq_iff_eq]
      rw [h1, h2, h3, List.count_eq_one_of_mem hnd2 hbxs]
    · by_cases hbx : b = x
      · subst hbx
        have haxs : a ∈ xs := by
          rcases List.mem_cons.mp ha with h | h
          · exact absurd h hab
          · exact h
        have h1 : xs.countP
            ((fun p : Nat × Nat =>
              decide ((p.1 = a ∧ p.2 = b) ∨ (p.1 = b ∧ p.2 = a))) ∘
              fun y => (b, y)) = xs.countP (fun y => decide (y = a)) := by
          apply List.countP_congr
          intro y hy
          simp only [Function.comp_apply, decide_eq_true_eq]
          constructor
          · rintro (⟨h, _⟩ | ⟨_, h⟩)
            · exact absurd h.symm hab
            · exact h
          · intro h
            exact Or.inr ⟨trivial, h⟩
        have h2 : (pairs xs).countP
            (fun p : Nat × Nat =>
              decide ((p.1 = a ∧ p.2 = b) ∨ (p.1 = b ∧ p.2 = a))) = 0 := by
          rw [List.countP_eq_zero]
          intro p hp
          have hmem := mem_pairs hp
          simp only [decide_eq_true_eq]
          rintro (⟨_, h1'⟩ | ⟨h2', _⟩)
          · exact hx (h1' ▸ hmem.2)
          · exact hx (h2' ▸ hmem.1)
        have h3 : xs.countP (fun y => decide (y = a)) = xs.count a := by
          apply List.countP_congr
          intro y hy
          simp [beq_iff_eq]
        rw [h1, h2, h3, List.count_eq_one_of_mem hnd2 haxs]
      · have haxs : a ∈ xs := by
          rcases List.mem_cons.mp ha with h | h
          · exact absurd h hax
          · exact h
        have hbxs : b ∈ xs := by
          rcases List.mem_cons.mp hb with h | h
          · exact absurd h hbx
          · exact h
        have h1 : xs.countP
            ((fun p : Nat × Nat =>
              decide ((p.1 = a ∧ p.2 = b) ∨ (p.1 = b ∧ p.2 = a))) ∘
              fun y => (x, y)) = 0 := by
          rw [List.countP_eq_zero]
          intro y hy
          simp only [Function.comp_apply, decide_eq_true_eq]
          rintro (⟨h, _⟩ | ⟨h, _⟩)
          · exact hax h.symm
          · exact hbx h.symm
        rw [h1, ih hnd2 haxs hbxs hab]

/-- C6: on a permutation state of length `n ≥ 2`,
`LocalAssignmentProblem.successors` yields `n(n-1)/2` children; for every
unordered pair of distinct row positions exactly one child carries the
parent's permutation with the entries at those two positions swapped, and
every child state is again a permutation. -/
theorem C6_swap_successors (costs : List (List Int)) (state : List Nat)
    (ccost : Int) (hperm : isPermutation state) (h2 : 2 ≤ state.length) :
    (LocalAssignmentProblem.successors costs state ccost).length =
      state.length * (state.length - 1) / 2 ∧
    (∀ a b : Nat, a < b → b < state.length →
      (LocalAssignmentProblem.successors costs state ccost).countP
        (fun ch => decide (ch.1 = swapPos state a b)) = 1) ∧
    (∀ ch ∈ LocalAssignmentProblem.successors costs state ccost,
      isPermutation ch.1) := by
  refine ⟨?_, ?_, ?_⟩
  · rw [LocalAssignmentProblem.successors, List.length_map, pairs_length,
      Nat.choose_two_right]
  · intro a b hab hb
    have ha : a < state.length := lt_trans hab hb
    rw [LocalAssignmentProblem.successors, List.countP_map]
    have hcongr : (pairs state).countP
        ((fun ch : List Nat × Int => decide (ch.1 = swapPos state a b)) ∘
          LocalAssignmentProblem.child costs state ccost) =
        (pairs state).countP
          (fun p => decide ((p.1 = a ∧ p.2 = b) ∨ (p.1 = b ∧ p.2 = a))) := by
      apply List.countP_congr
      intro p hp
      have hmem := mem_pairs hp
      have hne := pairs_ne hperm.1 hp
      have hp1 : p.1 < state.length := hperm.2 _ hmem.1
      have hp2 : p.2 < state.length := hperm.2 _ hmem.2
      simp only [Function.comp_apply, decide_eq_true_eq]
      show swapPos state p.1 p.2 = swapPos state a b ↔ _
      rw [swapPos_eq_iff hperm.1 hp1 hp2 ha hb hne (Nat.ne_of_lt hab)]
    rw [hcongr]
    exact countP_pairs hperm.1 (isPermutation_mem hperm ha)
      (isPermutation_mem hperm hb) (Nat.ne_of_lt hab)
  · intro ch hch
    simp only [LocalAssignmentProblem.successors, List.mem_map] at hch
    obtain ⟨p, hp, rfl⟩ := hch
    have hmem := mem_pairs hp
    exact isPermutation_swapPos hperm (hperm.2 _ hmem.1) (hperm.2 _ hmem.2)

/-- C6 witness: the permutation `[1,0]` of length 2 has exactly one
successor, namely the swap of positions 0 and 1, and its state is a
permutation. -/
theorem C6_swap_successors_witness :
    (isPermutation [1, 0] ∧ 2 ≤ ([1, 0] : List Nat).length) ∧
    (LocalAssignmentProblem.successors [[1, 2], [3, 4]] [1, 0] 5).length =
      ([1, 0] : List Nat).length * (([1, 0] : List Nat).length - 1) / 2 ∧
    (LocalAssignmentProblem.successors [[1, 2], [3, 4]] [1, 0] 5).countP
      (fun ch => decide (ch.1 = swapPos [1, 0] 0 1)) = 1 ∧
    isPermutation (([0, 1], (5 : Int)) : List Nat × Int).1 := by
  have h := C6_swap_successors [[1, 2], [3, 4]] [1, 0] 5 (by decide)
    (by decide)
  exact ⟨⟨by decide, by decide⟩, h.1, h.2.1 0 1 (by decide) (by decide),
    h.2.2 ([0, 1], 5) (by decide)⟩
